import Mathlib

/-!
Verification of the arithmetic-dynamics core of
`src/sage/dynamics/arithmetic_dynamics/projective_ds.py`.

Each definition below is a shallow embedding of a function (or a
self-contained block) of that file; the source lines it translates are
named in its doc comment.  External collaborators of the core (exact
field arithmetic, LLL lattice reduction, Groebner bases, floating-point
real fields) are taken as parameters of the embeddings, exactly where
the source calls out to them.  Projective points are modelled
abstractly: a type `α` together with the map, a normalization function
and a Boolean projective-equality test, mirroring the data model of the
source (points are tuples up to scaling, compared with `==`).
-/

/-! ### Orbit computation

`DynamicalSystem_projective.orbit` (projective_ds.py lines 1252-1277).
The bounds `N` arrive either as a pair `[m, k]` or as a single integer
`n` (wrapped to `[0, n]` at line 1253).  A `TypeError` is raised when a
bound is negative (line 1256-1257), the empty list is returned when
`N[0] > N[1]` (lines 1258-1259), and otherwise the point is advanced
`N[0]` times and the orbit segment `[f^(N[0])(P), ..., f^(N[1])(P)]`
is accumulated (lines 1261-1277).  The optional `normalize` keyword
applies `normalize_coordinates` after every step; evaluation of the map
itself is the external point evaluation `f`.
-/

/-- One orbit step: apply the map, then normalize if requested
(projective_ds.py lines 1267-1270 and 1272-1275). -/
def orbitStep {α : Type} (f nrm : α → α) (normalize : Bool) (Q : α) : α :=
  let Q' := f Q
  if normalize then nrm Q' else Q'

/-- The orbit segment `[Q, g Q, g (g Q), ...]` of length `m + 1`
(the accumulation loop of projective_ds.py lines 1271-1276). -/
def orbitAccum {α : Type} (g : α → α) (Q : α) : ℕ → List α
  | 0 => [Q]
  | m + 1 => Q :: orbitAccum g (g Q) m

/-- `orbit(P, N)` for a pair of integer bounds `N = (m, k)`
(projective_ds.py lines 1252-1277).  The `Except` channel carries the
`TypeError` of line 1257. -/
def orbit {α : Type} (f nrm : α → α) (normalize : Bool) (P : α)
    (N : ℤ × ℤ) : Except String (List α) :=
  if N.1 < 0 ∨ N.2 < 0 then
    .error "orbit bounds must be non-negative"
  else if N.1 > N.2 then
    .ok []
  else
    let Q₀ := if normalize then nrm P else P
    let Q := (orbitStep f nrm normalize)^[N.1.toNat] Q₀
    .ok (orbitAccum (orbitStep f nrm normalize) Q (N.2.toNat - N.1.toNat))

/-- `orbit(P, n)` for a single integer bound: the source wraps `n` into
the pair `[0, n]` (projective_ds.py lines 1252-1253). -/
def orbitSingle {α : Type} (f nrm : α → α) (normalize : Bool) (P : α)
    (n : ℤ) : Except String (List α) :=
  orbit f nrm normalize P (0, n)

/-! ### Cycle graph over a finite domain

`cyclegraph` (projective_ds.py lines 5804-5831), projective-space
branch (lines 5806-5814): every point of the finite domain becomes a
vertex; the image of the point is computed and normalized, giving the
single outgoing edge; a `ValueError` raised by point evaluation (a
point of indeterminacy of a degenerate reduced map) is caught at line
5813 and the vertex simply receives the empty edge list.  Point
evaluation is the external service `ev`; its `Except` channel is the
`ValueError` the source catches. -/
def cyclegraph {α : Type} (pts : List α) (ev : α → Except String α)
    (nrm : α → α) : List (α × List α) :=
  pts.map fun P =>
    match ev P with
    | .ok Q => (P, [nrm Q])
    | .error _ => (P, [])

/-! ### The possible-period sieve over the rationals

`possible_periods` for a system over `ZZ` or `QQ`
(projective_ds.py lines 2236-2341).  Primes in the requested range that
are not primes of bad reduction are each reduced and handed to the
per-prime possible-period computation (lines 2319-2327); the per-prime
result sets are intersected (lines 2329-2336); if no good prime was
found in the range a `ValueError` is raised (lines 2338-2339), and
otherwise the sorted intersection is returned (line 2341).  The
per-prime computation is the parameter `perPrime`. -/

/-- The primes in `[lo, hi]` (the iteration
`primes(primebound[0], primebound[1] + 1)` of projective_ds.py
line 2321). -/
def primesInRange (lo hi : ℕ) : List ℕ :=
  (List.range (hi + 1)).filter fun q => lo ≤ q ∧ q.Prime

/-- Intersection of the per-prime period sets, mirroring the
`firstgood` / `periods.intersection` accumulation of
projective_ds.py lines 2329-2336 over the good primes in order (the
python sets are modelled as duplicate-free lists). -/
def sieveIntersect (perPrime : ℕ → List ℕ) : List ℕ → Option (List ℕ)
  | [] => none
  | q :: qs =>
    some (qs.foldl (fun acc r => acc.filter fun x => x ∈ perPrime r)
      (perPrime q))

/-- `possible_periods` over `QQ`, parametrized by the per-prime period
sets `perPrime` and the bad-prime test `isBad`
(projective_ds.py lines 2311-2341). -/
def possiblePeriodsSieve (perPrime : ℕ → List ℕ) (isBad : ℕ → Bool)
    (lo hi : ℕ) : Except String (List ℕ) :=
  match sieveIntersect perPrime
      ((primesInRange lo hi).filter fun q => ¬ isBad q) with
  | none => .error "no primes of good reduction in that range"
  | some s => .ok (List.insertionSort (· ≤ ·) s)

/-! ### Bad primes and per-prime possible periods

Two ingredients of the sieve are embedded here for maps of the
projective line, the shape used by every example in the tree.
`primes_of_bad_reduction` (projective_ds.py lines 1359-1478) is in the
tree: its Groebner-basis computations are external-backend calls taken
as inputs, and its `check` trimming loop is embedded concretely with
its per-prime positive-dimension criterion proved equal to the
decidable common-projective-zero test.  The per-prime computation
`possible_periods` over a finite field (lines 5833-5880) delegates to
`_fast_possible_periods` in `projective_ds_helper`, a file that is not
part of this tree — only its caller, docstring and doctests are — and
is modelled from the spec, validated against those doctests. -/

/-- Value of the integer polynomial with coefficient list `F`
(constant first) at `z`, reduced modulo `p`. -/
def evalPolyMod (F : List ℤ) (z p : ℕ) : ℕ :=
  (F.foldr (fun c acc => ((acc * z : ℕ) + ((c % (p : ℤ)).toNat + p)) % p) 0)

/-- Coefficient list of the formal derivative. -/
def derivPoly (F : List ℤ) : List ℤ :=
  List.zipWith (fun c (i : ℕ) => c * ((i : ℤ) + 1)) (F.drop 1)
    (List.range (F.length - 1))

/-- Inverse modulo a prime `p`, by Fermat. -/
def modInv (p a : ℕ) : ℕ := a ^ (p - 2) % p

/-- Modelled from the spec: a dynamical system on the projective line
over `QQ`, written with cleared integer coefficients as
`(F(x,y) : g*y^d)` with `F(x,y) = sum F_i x^i y^(d-i)` — the shape of
the maps in the sources of the sieve claims (`DynamicalMap` of spec
section 3, restricted to ambient dimension 1). -/
structure RatMap1 where
  d : ℕ
  F : List ℤ
  g : ℤ

/-- Coefficient of `x^d` in `F` (the value `F(1, 0)`). -/
def RatMap1.lead (M : RatMap1) : ℤ := M.F.getD M.d 0

/-- Horner evaluation of an integer coefficient list in `GF(p)`. -/
def evalZ (p : ℕ) (F : List ℤ) (w : ZMod p) : ZMod p :=
  F.foldr (fun c acc => acc * w + (c : ZMod p)) 0

/-- The per-prime criterion of the `check` loop of
`primes_of_bad_reduction` (projective_ds.py lines 1470-1475): a
candidate prime is kept iff the ideal of the denominator-cleared
defining polynomials over `GF(p)` has positive dimension, i.e. iff the
reduced homogeneous polynomials share a projective common zero.  For a
line map `(F(x,y) : g*y^d)` the possible common zeros are `(1 : 0)` —
a zero iff `p` divides the coefficient of `x^d` — and `(z : 1)` — a
zero iff `p ∣ g` and `F(z, 1) ≡ 0 (mod p)`; the test below decides
exactly that, and `badAt_iff_common_zero` proves it equal to the
common-projective-zero criterion over `GF(p)`. -/
def RatMap1.badAt (M : RatMap1) (p : ℕ) : Bool :=
  (M.lead % (p : ℤ) == 0) ||
    ((M.g % (p : ℤ) == 0) &&
      ((List.range p).any fun z => evalPolyMod M.F z p == 0))

/-- The homogeneous form `F(x, y) = sum F_i x^i y^(d-i)` of the first
defining polynomial, over `GF(p)`. -/
def homEvalF (M : RatMap1) (p : ℕ) (x y : ZMod p) : ZMod p :=
  ((List.range (M.d + 1)).map fun i =>
    ((M.F.getD i 0 : ℤ) : ZMod p) * x ^ i * y ^ (M.d - i)).sum

/-- The second defining polynomial `g * y^d` over `GF(p)`. -/
def homEvalG (M : RatMap1) (p : ℕ) (y : ZMod p) : ZMod p :=
  ((M.g : ℤ) : ZMod p) * y ^ M.d

/-- `primes_of_bad_reduction(check=True)` for a map over `QQ`
(projective_ds.py lines 1420-1476).  The function first rejects
non-morphisms (`J.dimension() > 0` over `QQ` raises
`TypeError("not a morphism")`, lines 1436-1441) and then computes a
candidate prime list from the leading coefficients of a Groebner basis
of the cleared defining polynomials over `ZZ` (lines 1442-1464); both
are computations of the external algebra backend and enter as the
inputs `isMorphismQQ` and `cands`.  The `check` loop (lines 1466-1476)
is concrete: it walks the candidates and pops every prime whose mod-`p`
ideal has dimension zero, keeping exactly the candidates satisfying
the per-prime criterion `badAt`. -/
def primesOfBadReduction (M : RatMap1) (isMorphismQQ : Bool)
    (cands : List ℕ) : Except String (List ℕ) :=
  if ¬ isMorphismQQ then .error "not a morphism"
  else .ok (cands.filter fun p => M.badAt p)

/-- Points of the projective line over `GF(p)`: `z < p` is the affine
point `(z : 1)`, and `p` encodes the point at infinity `(1 : 0)`. -/
def linePoints (p : ℕ) : List ℕ := List.range (p + 1)

/-- Modelled from the spec: one application of the reduced map
(`ReductionOracle` of spec section 4.1).  Infinity is fixed (for a good
prime the leading coefficient is a unit); an affine point `z` goes to
`F(z)/g` when `g` is a unit mod `p`, and to infinity when `p ∣ g`. -/
def RatMap1.step (M : RatMap1) (p : ℕ) (x : ℕ) : ℕ :=
  if x = p then p
  else if M.g % (p : ℤ) == 0 then p
  else evalPolyMod M.F x p * modInv p ((M.g % (p : ℤ)).toNat) % p

/-- Modelled from the spec: exact period of a point of the reduced map,
`none` if the point is not on a cycle (the cycle decomposition of the
complete finite digraph, spec section 4.1). -/
def RatMap1.periodAt (M : RatMap1) (p : ℕ) (x : ℕ) : Option ℕ :=
  ((List.range (p + 1)).map (· + 1)).find? fun m => (M.step p)^[m] x == x

/-- Modelled from the spec: derivative of the reduced map in the affine
chart at an affine point (`F'(z)/g`); `0` at infinity, which is totally
ramified for this shape of map. -/
def RatMap1.derivAt (M : RatMap1) (p : ℕ) (x : ℕ) : ℕ :=
  if x = p then 0
  else if M.g % (p : ℤ) == 0 then 0
  else evalPolyMod (derivPoly M.F) x p * modInv p ((M.g % (p : ℤ)).toNat) % p

/-- Modelled from the spec: the multiplier of a cycle of length `m`
through `x` — the chain-rule product of the derivatives along the
cycle (spec glossary, "multiplier"). -/
def RatMap1.multiplierAt (M : RatMap1) (p : ℕ) (x m : ℕ) : ℕ :=
  ((List.range m).foldl (fun acc i => acc * M.derivAt p ((M.step p)^[i] x)) 1) % p

/-- Multiplicative order of `a` modulo `p` (`0` when `a ≡ 0`). -/
def multOrder (p a : ℕ) : ℕ :=
  (((List.range p).map (· + 1)).find? fun r => a ^ r % p == 1).getD 0

/-- Modelled from the spec: the per-prime possible-period set of
`possible_periods` over `GF(p)` (projective_ds.py lines 5833-5880,
whose body `_fast_possible_periods` is not in this tree).  Following
the algorithm of Hutz [Hutz2009] named in the src docstring and its
in-src doctests (reproduced as theorems below): each cycle of length
`m` of the reduced map contributes `m`; when its multiplier `λ` is
nonzero it also contributes `m*r` for `r` the multiplicative order of
`λ`, and additionally `m*r*p` when `p ≤ 3` (the primes with nontrivial
ramification bound on the line over `QQ`).  This makes the per-prime
set the provable superset of rational minimal periods required by spec
section 4.2.  The python set is modelled as a duplicate-free list. -/
def perPrimePeriods (M : RatMap1) (p : ℕ) : List ℕ :=
  ((linePoints p).foldr (fun x acc =>
    match M.periodAt p x with
    | none => acc
    | some m =>
      let lam := M.multiplierAt p x m
      if lam ≠ 0 then
        let r := multOrder p lam
        if p ≤ 3 then m * r * p :: m * r :: m :: acc
        else m * r :: m :: acc
      else m :: acc) []).dedup

/-- The end-to-end sieve for a line map over `QQ`
(projective_ds.py lines 2311-2341): the bad primes are obtained from
`primes_of_bad_reduction` (line 2312, its error propagating), and the
sieve skeleton runs with the membership test `q in badprimes`
(line 2322) and the modelled per-prime period sets. -/
def possiblePeriodsQQ (M : RatMap1) (isMorphismQQ : Bool)
    (cands : List ℕ) (lo hi : ℕ) : Except String (List ℕ) :=
  match primesOfBadReduction M isMorphismQQ cands with
  | .error e => .error e
  | .ok badprimes =>
    possiblePeriodsSieve (perPrimePeriods M)
      (fun q => badprimes.contains q) lo hi

/-- The map `(x^2 - 29/16 y^2, y^2)` with cleared coefficients
`(16x^2 - 29y^2 : 16y^2)` (the doctest map of projective_ds.py
lines 2264-2267 and 4286-4289). -/
def map2916 : RatMap1 := ⟨2, [-29, 0, 16], 16⟩

/-! ### Green's function, error-bounded mode: the iterate count

`green_function` (projective_ds.py lines 1556-1750).  When an error
bound is requested, an upper bound `U` and a lower bound `L` are
computed (lines 1670-1707: local heights and a Nullstellensatz
certificate, both delegated to the external arithmetic backend), and
the iterate count is derived from them at lines 1708-1712:

  C = max([U, L])
  if C != 0:
      N = R(C / (err*(d-1))).log(d).abs().ceil()
  else:
      N = 1

The derivation is embedded below over exact reals (`x.log(d)` of a Sage
real field is `log x / log d`). -/
noncomputable def greenIterateCount (d : ℕ) (U L err : ℝ) : ℤ :=
  let C := max U L
  if C ≠ 0 then ⌈|Real.log (C / (err * ((d : ℝ) - 1))) / Real.log d|⌉
  else 1

/-- The iterate count as the claim words it:
`N = ceil(log_d(max(U,L)/err))`. -/
noncomputable def greenIterateCountClaim (d : ℕ) (U L err : ℝ) : ℤ :=
  ⌈Real.log (max U L / err) / Real.log d⌉

/-- The iterate count as the source actually computes it, spelled
without the intermediate `C`: `ceil(|log_d(max(U,L)/(err*(d-1)))|)`
when `max(U,L) ≠ 0`, and `1` otherwise. -/
noncomputable def greenIterateCountAmended (d : ℕ) (U L err : ℝ) : ℤ :=
  if max U L = 0 then 1
  else ⌈|Real.log (max U L / (err * ((d : ℝ) - 1))) / Real.log d|⌉

/-! ### Rational lifting

`lift_to_rational_periodic` (projective_ds.py lines 4241-4442).  The
candidate state is a triple (point, claimed period `n`, current p-adic
precision `k`), processed by nested loops:

* the inner loop (lines 4334-4406) raises the precision of one
  candidate until it reaches the target `L` or the candidate dies: the
  Jacobian determinant of the `n`-th-iterate-minus-identity is tested
  mod `p` (lines 4335-4340); if invertible, one Newton step runs
  (lines 4341-4373) and the precision becomes `min(2k, L)` (line
  4374); otherwise all `p^N` one-digit lifts are enumerated (lines
  4375-4400), the ones still exactly periodic at precision `k+1`
  survive, the first continuing in place (precision `k+1`, line 4406)
  and the rest joining the candidate queue, and the candidate dies if
  none survives (lines 4401-4403);
* a finished candidate is reconstructed by LLL and subjected to the
  height-bound test (lines 4410-4427);
* the reconstructed point is verified by exact iteration of the map
  over `QQ` (lines 4428-4441) and only then recorded.

The numeric subroutines act on the external exact/modular arithmetic
and are parameters of the skeleton; the loop structure, the precision
bookkeeping and the verification loop are embedded concretely. -/
structure LiftParams (α : Type) where
  /-- The lifting prime (line 4304). -/
  p : ℕ
  /-- The ambient dimension `N` (line 4308). -/
  N : ℕ
  /-- The precision target, computed once before the loops from the
  height bound `B`, the dimension and `p` (line 4312:
  `L = trunc(log(2^(N/2+1) * sqrt(N+1) * B^2)/log(p) + 1)`, evaluated
  in the external 53-bit real field). -/
  L : ℕ
  /-- Normalization of a popped candidate: scale by the inverse of the
  last coordinate not divisible by `p` (lines 4324-4331). -/
  normalizeQ : α → α
  /-- Lines 4335-4340: the Jacobian `l = multipliermod(T,n,p,2k) - 1`
  reduced mod `p^k` has determinant not divisible by `p`. -/
  detInvertible : α → ℕ → ℕ → Bool
  /-- Lines 4341-4372: the Newton update of `T` at precision `k`;
  `none` when the consistency check of lines 4349-4355 sets `bad = 1`
  (the `n`-th iterate fails to agree with `T` mod `p^k`, impossible for
  candidates that are `n`-periodic mod `p^k`). -/
  newtonStep : α → ℕ → ℕ → Option α
  /-- Lines 4385-4391: add `shift[j]*p^k` to each coordinate other
  than the normalization coordinate. -/
  shiftLift : α → List ℕ → ℕ → α
  /-- Lines 4392-4393: the `n`-th iterate of the lifted point mod
  `p^(k+1)` equals the lifted point. -/
  periodicAtNext : α → ℕ → ℕ → Bool
  /-- Lines 4410-4427: LLL reconstruction of the rational point from
  the lattice spanned by the lifted coordinates and `p^L` times the
  standard basis, `none` when a coordinate exceeds the gcd-scaled
  height bound (`bad = 1` at line 4426). -/
  reconstruct : α → Option α
  /-- The exact map over `QQ` (the call `self(newP)` at line 4435). -/
  fQ : α → α
  /-- Projective equality `==` of exact points (line 4436). -/
  beq : α → α → Bool

/-- All digit vectors of length `N` with entries `< p`: the iterator
`xmrange([p]*N)` of projective_ds.py line 4383 (`p^N` branches). -/
def allShifts (p : ℕ) : ℕ → List (List ℕ)
  | 0 => [[]]
  | n + 1 => (List.range p).flatMap fun digit =>
      (allShifts p n).map fun s => digit :: s

/-- Result of one pass of the inner precision-raising loop
(projective_ds.py lines 4334-4406). -/
inductive LiftStepResult (α : Type) : Type
  | hensel (T' : α) (k' : ℕ)
  | dropped
  | branched (T' : α) (k' : ℕ) (extra : List (α × ℕ × ℕ))

/-- One pass of the inner loop body (projective_ds.py lines
4335-4406): Hensel step when the Jacobian determinant is invertible
(new precision `min(2k, L)`), otherwise enumeration of all one-digit
lifts, the surviving lifts continuing at precision `k+1` (the first in
place, the rest queued) and the candidate dropped when none survive. -/
def liftStep {α : Type} (pr : LiftParams α) (T : α) (n k : ℕ) :
    LiftStepResult α :=
  if pr.detInvertible T n k then
    match pr.newtonStep T n k with
    | some T' => .hensel T' (min (2 * k) pr.L)
    | none => .dropped
  else
    let survivors := (allShifts pr.p pr.N).filterMap fun s =>
      let T' := pr.shiftLift T s k
      if pr.periodicAtNext T' n k then some T' else none
    match survivors with
    | [] => .dropped
    | T' :: rest => .branched T' (k + 1) (rest.map fun S => (S, n, k + 1))

/-- The inner `while k < L and bad == 0` loop (projective_ds.py lines
4334-4406): returns the fully lifted point (or `none` when the
candidate went bad) together with the extra candidates queued by
branching steps.  `fuel` bounds the iterations; the source loop
terminates because the precision strictly increases toward `L`. -/
def liftRaise {α : Type} (pr : LiftParams α) :
    ℕ → α → ℕ → ℕ → Option α × List (α × ℕ × ℕ)
  | 0, T, _, k => if k < pr.L then (none, []) else (some T, [])
  | fuel + 1, T, n, k =>
    if k < pr.L then
      match liftStep pr T n k with
      | .hensel T' k' => liftRaise pr fuel T' n k'
      | .dropped => (none, [])
      | .branched T' k' extra =>
        let (r, ex) := liftRaise pr fuel T' n k'
        (r, extra ++ ex)
    else (some T, [])

/-- The verification loop (projective_ds.py lines 4431-4440): iterate
the exact map on the reconstructed point up to `n` times; at the first
`k` with `f^k(P) == P` record `[f^k(P), k]` unless an equal pair is
already recorded; a point with no closure within `n` steps is not
recorded.  `newP` carries the current iterate `f^(k-1)(P)` and `c` the
remaining allowance `n - k + 1`. -/
def verifyLoop {α : Type} (pr : LiftParams α) (P : α) :
    ℕ → α → ℕ → List (α × ℕ) → List (α × ℕ)
  | 0, _, _, good => good
  | c + 1, newP, k, good =>
    let newP' := pr.fQ newP
    if pr.beq newP' P then
      if good.any (fun q => pr.beq q.1 P && q.2 == k) then good
      else good ++ [(newP', k)]
    else verifyLoop pr P c newP' (k + 1) good

/-- The verification block entry (lines 4429-4434: `newP = copy(P)`,
`k = 1`). -/
def verifyPoint {α : Type} (pr : LiftParams α) (P : α) (n : ℕ)
    (good : List (α × ℕ)) : List (α × ℕ) :=
  verifyLoop pr P n P 1 good

/-- The outer `while points` loop (projective_ds.py lines 4322-4441):
pop a candidate (the source pops from the tail of `points`, and later
appends branched candidates there; the list below is that stack with
its top at the head), normalize it, raise its precision, reconstruct by
LLL and verify.  `fuel` bounds the passes; the source terminates
because every queued candidate carries a strictly larger precision. -/
def liftLoop {α : Type} (pr : LiftParams α) :
    ℕ → List (α × ℕ × ℕ) → List (α × ℕ) → List (α × ℕ)
  | _, [], good => good
  | 0, _, good => good
  | fuel + 1, (T, n, k) :: rest, good =>
    let T₀ := pr.normalizeQ T
    let (res, extra) := liftRaise pr pr.L T₀ n k
    let rest' := extra.reverse ++ rest
    match res with
    | none => liftLoop pr fuel rest' good
    | some Tfin =>
      match pr.reconstruct Tfin with
      | none => liftLoop pr fuel rest' good
      | some P => liftLoop pr fuel rest' (verifyPoint pr P n good)

/-- `lift_to_rational_periodic(points_modp)` (projective_ds.py lines
4298-4442): every input pair starts at precision 1 (line 4317) and the
verified rational pairs are accumulated in `good_points` (line 4318,
returned at line 4442). -/
def liftToRationalPeriodic {α : Type} (pr : LiftParams α) (fuel : ℕ)
    (pointsModP : List (α × ℕ)) : List (α × ℕ) :=
  liftLoop pr fuel ((pointsModP.map fun q => (q.1, q.2, 1)).reverse) []

/-! ### Building the orbit graph from (pre)periodic points

`_preperiodic_points_to_cyclegraph` (projective_ds.py lines
2369-2390).  The encountered points are kept in a list `D`, new points
being looked up with `==` so that equal points with different
representations appear once; the vertex list `V` receives the
`D`-representative of each input point, and the edge list `E` the
`D`-representative of its normalized image; finally the digraph is
built from `dict(zip(V, E))`.  Points are abstract: the map `f`, the
normalization `nrm` and projective equality `beq` are parameters. -/

/-- `D[D.index(x)]`: the first element of `D` equal to `x` under `==`
(the lookups at projective_ds.py lines 2377 and 2384). -/
def findRep {α : Type} (beq : α → α → Bool) (D : List α) (x : α) :
    Option α :=
  D.find? fun dd => beq dd x

/-- The state `(D, V, E)` of the loop of projective_ds.py lines
2369-2387; each `E` entry is the single target `[Q]` appended there. -/
structure GraphState (α : Type) where
  D : List α
  V : List α
  E : List α

/-- One iteration of the loop (projective_ds.py lines 2375-2387):
record the representative of `val` in `V` (inserting into `D` when the
point is new), then the representative of its normalized image in
`E`. -/
def graphStep {α : Type} (beq : α → α → Bool) (f nrm : α → α)
    (st : GraphState α) (val : α) : GraphState α :=
  let (D₁, V₁) :=
    match findRep beq st.D val with
    | some r => (st.D, st.V ++ [r])
    | none => (st.D ++ [val], st.V ++ [val])
  let Q := nrm (f val)
  match findRep beq D₁ Q with
  | some r => ⟨D₁, V₁, st.E ++ [r]⟩
  | none => ⟨D₁ ++ [Q], V₁, st.E ++ [Q]⟩

/-- The full loop over the input list (projective_ds.py lines
2369-2387). -/
def buildGraphState {α : Type} (beq : α → α → Bool) (f nrm : α → α)
    (preper : List α) : GraphState α :=
  preper.foldl (graphStep beq f nrm) ⟨[], [], []⟩

/-- Python `dict` built from an association list: a repeated key keeps
its first position but takes the latest value (the `dict(zip(V, E))`
of projective_ds.py line 2389). -/
def dictInsert {α β : Type} [DecidableEq α] (d : List (α × β))
    (kv : α × β) : List (α × β) :=
  if d.any (fun q => q.1 = kv.1) then
    d.map fun q => if q.1 = kv.1 then (q.1, kv.2) else q
  else d ++ [kv]

/-- Python `dict` of an association list. -/
def pythonDict {α β : Type} [DecidableEq α] (l : List (α × β)) :
    List (α × β) :=
  l.foldl dictInsert []

/-- The vertex list of `DiGraph(dict, loops=True)`: the keys, followed
by any edge targets that are not keys. -/
def digraphVertices {α : Type} [DecidableEq α] (d : List (α × α)) :
    List α :=
  d.map (·.1) ++ ((d.map (·.2)).filter fun t => t ∉ d.map (·.1)).dedup

/-- The adjacency dictionary of `_preperiodic_points_to_cyclegraph`
(projective_ds.py lines 2369-2390). -/
def preperiodicPointsToCyclegraph {α : Type} [DecidableEq α]
    (beq : α → α → Bool) (f nrm : α → α) (preper : List α) :
    List (α × α) :=
  let st := buildGraphState beq f nrm preper
  pythonDict (st.V.zip st.E)

/-! ### Auxiliary definitions used by concrete instantiations -/

/-- A degenerate one-dimensional instance of the lifting services over
`Bool` (trivial Newton step, trivial reconstruction, the identity as
exact map): used to instantiate the lifting skeleton on concrete
runs. -/
def trivialLift : LiftParams Bool where
  p := 2
  N := 1
  L := 2
  normalizeQ := id
  detInvertible := fun _ _ _ => true
  newtonStep := fun T _ _ => some T
  shiftLift := fun T _ _ => T
  periodicAtNext := fun _ _ _ => true
  reconstruct := some
  fQ := id
  beq := fun a b => a == b

/-- A lifting instance over `Bool` whose Jacobian test always reports
a singular matrix, forcing the branching path. -/
def branchingLift : LiftParams Bool where
  p := 2
  N := 1
  L := 2
  normalizeQ := id
  detInvertible := fun _ _ _ => false
  newtonStep := fun T _ _ => some T
  shiftLift := fun T _ _ => T
  periodicAtNext := fun _ _ _ => true
  reconstruct := some
  fQ := id
  beq := fun a b => a == b

/-- Point evaluation of the reduced map `(xy : y^2)` on the projective
line over `GF(2)` (points encoded `0 ↦ (0:1)`, `1 ↦ (1:1)`,
`2 ↦ (1:0)`): the point `(1:0)` is a point of indeterminacy, reported
as the `ValueError` the source catches. -/
def evXY2 : ℕ → Except String ℕ :=
  fun P => if P = 2 then .error "indeterminacy" else .ok P

/-- The loop invariant of `_preperiodic_points_to_cyclegraph`: the
encountered-point list `D` holds at most one representative per
projective-equality class, and the vertex and edge lists record, entry
by entry, the representative of each processed point and of its
normalized image. -/
def graphInv {α : Type} (beq : α → α → Bool) (f nrm : α → α)
    (pts : List α) (st : GraphState α) : Prop :=
  st.D.Pairwise (fun a b => beq a b = false) ∧
  List.Forall₂ (fun v x => v ∈ st.D ∧ beq v x = true) st.V pts ∧
  List.Forall₂ (fun e x => e ∈ st.D ∧ beq e (nrm (f x)) = true) st.E pts

/-! ## Theorems -/

/-- The orbit segment accumulated by the source loop is the list of
iterates `[Q, g Q, ..., g^[m] Q]`. -/
theorem orbitAccum_eq_map {α : Type} (g : α → α) (Q : α) (m : ℕ) :
    orbitAccum g Q m = (List.range (m + 1)).map fun i => g^[i] Q := by
  induction m generalizing Q with
  | zero => simp [orbitAccum]
  | succ m ih =>
    have h2 : (List.range (m + 1 + 1)).map (fun i => g^[i] Q)
        = Q :: (List.range (m + 1)).map (fun i => g^[i] (g Q)) := by
      rw [List.range_succ_eq_map, List.map_cons, List.map_map]
      refine congrArg₂ List.cons rfl (List.map_congr_left ?_)
      intro i _
      simp [Function.comp, Function.iterate_succ_apply]
    rw [orbitAccum, ih (g Q), h2]

/-- With `normalize=False` an orbit step is just the map. -/
theorem orbitStep_false {α : Type} (f nrm : α → α) :
    orbitStep f nrm false = f := by
  funext Q
  simp [orbitStep]

/-- C10: `orbit(P, [m, k])` raises a `TypeError` whenever `m < 0` or
`k < 0`, before the map is ever evaluated (the result does not depend
on the map); it returns the empty list whenever `0 ≤ k < m`; and for a
single non-negative integer bound `n` it returns
`[P, f(P), ..., f^n(P)]`, of length `n + 1`. -/
theorem orbit_bounds_behavior {α : Type} (f nrm : α → α) (nz : Bool)
    (P : α) (m k n : ℤ) :
    (m < 0 ∨ k < 0 →
      orbit f nrm nz P (m, k) = .error "orbit bounds must be non-negative" ∧
      orbit f nrm nz P (m, k) = orbit (fun x => x) (fun x => x) nz P (m, k)) ∧
    (0 ≤ k → k < m → orbit f nrm nz P (m, k) = .ok []) ∧
    (0 ≤ n → orbitSingle f nrm false P n =
      .ok ((List.range (n.toNat + 1)).map fun i => f^[i] P)) := by
  refine ⟨fun hneg => ?_, fun hk hkm => ?_, fun hn => ?_⟩
  · constructor <;> simp [orbit, hneg]
  · have hne : ¬ (m < 0 ∨ k < 0) := by omega
    have hgt : m > k := hkm
    simp [orbit, hne, hgt]
  · have hne : ¬ ((0 : ℤ) < 0 ∨ n < 0) := by omega
    have hle : ¬ ((0 : ℤ) > n) := by omega
    simp only [orbitSingle, orbit, hne, if_false, hle, Int.toNat_zero,
      Function.iterate_zero, id_eq, Nat.sub_zero, orbitStep_false]
    rw [orbitAccum_eq_map]
    simp

/-- Witness for `orbit_bounds_behavior` at concrete inputs: negative
bound errors out, inverted bounds give the empty orbit, and a single
bound `3` gives the four iterates of the successor map from `0`. -/
theorem orbit_bounds_behavior_witness :
    orbit Nat.succ id false 0 (-1, 2) = .error "orbit bounds must be non-negative" ∧
    orbit Nat.succ id false 0 (2, 1) = .ok [] ∧
    orbitSingle Nat.succ id false 0 3 = .ok [0, 1, 2, 3] := by
  refine ⟨((orbit_bounds_behavior Nat.succ id false 0 (-1) 2 3).1
      (Or.inl (by decide))).1,
    (orbit_bounds_behavior Nat.succ id false 0 2 1 3).2.1 (by decide)
      (by decide), ?_⟩
  rw [(orbit_bounds_behavior Nat.succ id false 0 2 1 3).2.2 (by decide)]
  exact congrArg Except.ok (by decide)

/-- C2 (counterexample): the claimed iterate count
`ceil(log_d(max(U,L)/err))` disagrees with the source's
`ceil(|log_d(max(U,L)/(err*(d-1)))|)` already at `d = 3`,
`U = 2`, `L = 0`, `err = 1`: the source computes `0` iterates, the
claimed formula gives `1`. -/
theorem green_iterate_count_counterexample :
    greenIterateCount 3 2 0 1 = 0 ∧ greenIterateCountClaim 3 2 0 1 = 1 := by
  constructor
  · unfold greenIterateCount
    have hmax : max (2 : ℝ) 0 = 2 := by norm_num
    have harg : (2 : ℝ) / (1 * ((3 : ℕ) - 1 : ℝ)) = 1 := by norm_num
    rw [if_pos (by rw [hmax]; norm_num), hmax, harg, Real.log_one,
      zero_div, abs_zero, Int.ceil_zero]
  · unfold greenIterateCountClaim
    have hmax : max (2 : ℝ) 0 / 1 = 2 := by norm_num
    rw [hmax, Int.ceil_eq_iff]
    have h3 : (0 : ℝ) < Real.log 3 := Real.log_pos (by norm_num)
    constructor
    · push_cast
      norm_num
      exact div_pos (Real.log_pos (by norm_num)) h3
    · push_cast
      rw [div_le_one h3]
      exact (Real.log_le_log_iff (by norm_num) (by norm_num)).mpr (by norm_num)

/-- C2 (amended): in error-bounded mode the iterate count actually
used is `N = ceil(|log_d(max(U,L)/(err*(d-1)))|)` when `max(U,L)` is
nonzero, and `N = 1` otherwise (projective_ds.py lines 1708-1712). -/
theorem green_iterate_count_amended_correct (d : ℕ) (U L err : ℝ) :
    greenIterateCount d U L err = greenIterateCountAmended d U L err := by
  unfold greenIterateCount greenIterateCountAmended
  by_cases h : max U L = 0
  · simp [h]
  · simp [h]

/-- Membership in the fold of intersections over a prime list. -/
theorem mem_foldl_inter (perPrime : ℕ → List ℕ) (x : ℕ) :
    ∀ (qs : List ℕ) (init : List ℕ),
      (x ∈ qs.foldl (fun acc r => acc.filter fun y => y ∈ perPrime r)
          init ↔
        x ∈ init ∧ ∀ q ∈ qs, x ∈ perPrime q) := by
  intro qs
  induction qs with
  | nil => simp
  | cons q qs ih =>
    intro init
    rw [List.foldl_cons, ih]
    simp only [List.mem_filter, List.mem_cons, decide_eq_true_eq]
    constructor
    · rintro ⟨⟨h1, h2⟩, h3⟩
      exact ⟨h1, fun r hr => hr.elim (fun he => he ▸ h2) (h3 r)⟩
    · rintro ⟨h1, h2⟩
      exact ⟨⟨h1, h2 q (Or.inl rfl)⟩, fun r hr => h2 r (Or.inr hr)⟩

/-- Membership in the sieve intersection of a nonempty prime list. -/
theorem mem_sieveIntersect (perPrime : ℕ → List ℕ) (qs : List ℕ)
    (s : List ℕ) (h : sieveIntersect perPrime qs = some s) (x : ℕ) :
    x ∈ s ↔ ∀ q ∈ qs, x ∈ perPrime q := by
  cases qs with
  | nil => simp [sieveIntersect] at h
  | cons q qs =>
    simp only [sieveIntersect, Option.some.injEq] at h
    subst h
    rw [mem_foldl_inter]
    simp only [List.mem_cons]
    constructor
    · rintro ⟨h1, h2⟩ r hr
      exact hr.elim (fun he => he ▸ h1) (h2 r)
    · intro h1
      exact ⟨h1 q (Or.inl rfl), fun r hr => h1 r (Or.inr hr)⟩

/-- The sieve intersection is defined exactly for nonempty prime
lists. -/
theorem sieveIntersect_none_iff (perPrime : ℕ → List ℕ)
    (qs : List ℕ) : sieveIntersect perPrime qs = none ↔ qs = [] := by
  cases qs <;> simp [sieveIntersect]

/-- C6: the sieve raises the hard error "no primes of good reduction
in that range" exactly when the set of good-reduction primes in the
requested range is empty; whenever at least one good prime lies in the
range, a sorted result list is returned. -/
theorem possible_periods_no_good_primes_iff
    (perPrime : ℕ → List ℕ) (isBad : ℕ → Bool) (lo hi : ℕ) :
    (possiblePeriodsSieve perPrime isBad lo hi =
        .error "no primes of good reduction in that range" ↔
      (primesInRange lo hi).filter (fun q => ¬ isBad q) = []) ∧
    ((primesInRange lo hi).filter (fun q => ¬ isBad q) ≠ [] →
      ∃ l, possiblePeriodsSieve perPrime isBad lo hi = .ok l) := by
  unfold possiblePeriodsSieve
  rcases hgood : (primesInRange lo hi).filter (fun q => ¬ isBad q) with - | ⟨q, qs⟩
  · simp [sieveIntersect]
  · simp [sieveIntersect]

/-- Witness for `possible_periods_no_good_primes_iff`: with every
prime good, the range `[1, 3]` contains the good primes 2 and 3 and a
result list is returned. -/
theorem possible_periods_no_good_primes_iff_witness :
    ∃ l, possiblePeriodsSieve (fun q => {q}) (fun _ => false) 1 3 =
      .ok l :=
  (possible_periods_no_good_primes_iff (fun q => {q}) (fun _ => false)
    1 3).2 (by decide)

/-- C7: a returned result is the sorted intersection of the per-prime
period sets over all good primes of the range, bad primes excluded;
and the intersection is antitone in the prime list: enlarging a
nonempty list of good primes can only shrink the result. -/
theorem possible_periods_intersection_antitone (perPrime : ℕ → List ℕ) :
    (∀ (isBad : ℕ → Bool) (lo hi : ℕ) (l : List ℕ),
      possiblePeriodsSieve perPrime isBad lo hi = .ok l →
        l.Sorted (· ≤ ·) ∧
        (∀ x, x ∈ l ↔
          ∀ q ∈ primesInRange lo hi, ¬ isBad q → x ∈ perPrime q)) ∧
    (∀ (S S' s s' : List ℕ), S ≠ [] → S ⊆ S' →
      sieveIntersect perPrime S = some s →
      sieveIntersect perPrime S' = some s' →
      ∀ x ∈ List.insertionSort (· ≤ ·) s',
        x ∈ List.insertionSort (· ≤ ·) s) := by
  constructor
  · intro isBad lo hi l hok
    unfold possiblePeriodsSieve at hok
    rcases hs : sieveIntersect perPrime
        ((primesInRange lo hi).filter fun q => ¬ isBad q) with - | s
    · rw [hs] at hok
      exact absurd hok (by simp)
    · rw [hs] at hok
      simp only [Except.ok.injEq] at hok
      subst hok
      refine ⟨List.sorted_insertionSort _ _, fun x => ?_⟩
      rw [List.mem_insertionSort, mem_sieveIntersect perPrime _ s hs x]
      constructor
      · intro h q hq hbad
        exact h q (List.mem_filter.mpr ⟨hq, by simpa using hbad⟩)
      · intro h q hq
        rcases List.mem_filter.mp hq with ⟨hq1, hq2⟩
        exact h q hq1 (by simpa using hq2)
  · intro S S' s s' hne hsub hS hS' x hx
    rw [List.mem_insertionSort] at hx ⊢
    rw [mem_sieveIntersect perPrime S' s' hS' x] at hx
    rw [mem_sieveIntersect perPrime S s hS x]
    exact fun q hq => hx q (hsub hq)

/-- Witness for `possible_periods_intersection_antitone`: with
per-prime sets `{1, q}`, the intersection over the primes `[2, 3]` is
contained in the intersection over `[2]` alone. -/
theorem possible_periods_intersection_antitone_witness :
    1 ∈ List.insertionSort (· ≤ ·) [1, 2] :=
  (possible_periods_intersection_antitone (fun q => [1, q])).2 [2] [2, 3]
    [1, 2] ([1, 2].filter fun x => x ∈ [1, 3]) (by decide) (by decide)
    rfl rfl 1 (by decide)

/-- C8 (counterexample): the reduced map `(xy : y^2)` over `GF(2)` has
the point of indeterminacy `(1:0)` (encoded `2`), yet `cyclegraph`
returns a partial digraph — the indeterminate point becomes a vertex
with no outgoing edge — instead of raising. -/
theorem cyclegraph_indeterminacy_counterexample :
    evXY2 2 = .error "indeterminacy" ∧
    cyclegraph [0, 1, 2] evXY2 id = [(0, [0]), (1, [1]), (2, [])] := by
  constructor <;> rfl

/-- C8 (amended): supplying a map with a point of indeterminacy is not
reported as an error: the evaluation failure is caught, the point
becomes a vertex with empty edge list, and every successfully
evaluated point keeps its single normalized image edge, so a (partial)
digraph is always returned. -/
theorem cyclegraph_indeterminacy_caught {α : Type} (pts : List α)
    (ev : α → Except String α) (nrm : α → α) (P : α) (hP : P ∈ pts) :
    (∀ s, ev P = .error s → (P, []) ∈ cyclegraph pts ev nrm) ∧
    (∀ Q, ev P = .ok Q → (P, [nrm Q]) ∈ cyclegraph pts ev nrm) := by
  constructor
  · intro s hs
    simp only [cyclegraph, List.mem_map]
    exact ⟨P, hP, by simp [hs]⟩
  · intro Q hQ
    simp only [cyclegraph, List.mem_map]
    exact ⟨P, hP, by simp [hQ]⟩

/-- Witness for `cyclegraph_indeterminacy_caught` at the concrete
degenerate map over `GF(2)`. -/
theorem cyclegraph_indeterminacy_caught_witness :
    (2, ([] : List ℕ)) ∈ cyclegraph [0, 1, 2] evXY2 id :=
  (cyclegraph_indeterminacy_caught [0, 1, 2] evXY2 id 2 (by decide)).1
    "indeterminacy" rfl

/-- The Horner value modulo `p` is reduced below `p`. -/
theorem evalPolyMod_lt (F : List ℤ) (z p : ℕ) (hp : 0 < p) :
    evalPolyMod F z p < p := by
  cases F with
  | nil => simpa [evalPolyMod] using hp
  | cons c F =>
    simp only [evalPolyMod, List.foldr_cons]
    exact Nat.mod_lt _ hp

/-- The Horner value modulo `p` casts to the Horner value in
`GF(p)`. -/
theorem evalPolyMod_cast (F : List ℤ) (z p : ℕ) (hp : 0 < p) :
    ((evalPolyMod F z p : ℕ) : ZMod p) = evalZ p F (z : ZMod p) := by
  induction F with
  | nil => simp [evalPolyMod, evalZ]
  | cons c F ih =>
    have hnn : (0 : ℤ) ≤ c % (p : ℤ) :=
      Int.emod_nonneg c (by exact_mod_cast hp.ne')
    have hcast : (((c % (p : ℤ)).toNat : ℕ) : ZMod p) = (c : ZMod p) := by
      rw [show (((c % (p : ℤ)).toNat : ℕ) : ZMod p) =
          ((((c % (p : ℤ)).toNat : ℕ) : ℤ) : ZMod p) from
        (Int.cast_natCast _).symm]
      rw [Int.toNat_of_nonneg hnn, ZMod.intCast_mod]
    simp only [evalPolyMod, List.foldr_cons] at *
    rw [ZMod.natCast_mod]
    push_cast
    rw [ih, hcast, ZMod.natCast_self]
    rw [show evalZ p (c :: F) (z : ZMod p) =
        evalZ p F (z : ZMod p) * (z : ZMod p) + (c : ZMod p) from rfl]
    ring

/-- Vanishing of the Horner value modulo `p` is vanishing in
`GF(p)`. -/
theorem evalPolyMod_zero_iff (F : List ℤ) (z p : ℕ) (hp : 0 < p) :
    evalPolyMod F z p = 0 ↔ evalZ p F (z : ZMod p) = 0 := by
  rw [← evalPolyMod_cast F z p hp, ZMod.natCast_zmod_eq_zero_iff_dvd]
  constructor
  · intro h
    rw [h]
    exact dvd_zero p
  · intro h
    exact Nat.eq_zero_of_dvd_of_lt h (evalPolyMod_lt F z p hp)

/-- The Horner value in `GF(p)` is the coefficient sum. -/
theorem evalZ_eq_sum (p : ℕ) (F : List ℤ) (w : ZMod p) :
    evalZ p F w = ((List.range F.length).map fun i =>
      ((F.getD i 0 : ℤ) : ZMod p) * w ^ i).sum := by
  induction F with
  | nil => simp [evalZ]
  | cons c F ih =>
    have hstep : evalZ p (c :: F) w = evalZ p F w * w + (c : ZMod p) := rfl
    rw [hstep, ih, List.length_cons, List.range_succ_eq_map,
      List.map_cons, List.map_map]
    have hterm : ∀ i ∈ List.range F.length,
        ((fun i => ((List.getD (c :: F) i 0 : ℤ) : ZMod p) * w ^ i) ∘
          Nat.succ) i = (((List.getD F i 0 : ℤ) : ZMod p) * w ^ i) * w := by
      intro i _
      simp [Function.comp, List.getD_cons_succ, pow_succ, mul_assoc]
    rw [List.map_congr_left hterm, List.sum_cons, List.sum_map_mul_right]
    simp [add_comm]

/-- At the point at infinity `(1 : 0)` the first polynomial evaluates
to its leading coefficient. -/
theorem homEvalF_inf (M : RatMap1) (p : ℕ) :
    homEvalF M p 1 0 = ((M.lead : ℤ) : ZMod p) := by
  rw [homEvalF, List.range_succ, List.map_append, List.sum_append,
    List.map_singleton, List.sum_singleton]
  rw [List.sum_eq_zero]
  · rw [RatMap1.lead, one_pow, Nat.sub_self, pow_zero]
    ring
  · intro x hx
    rcases List.mem_map.mp hx with ⟨i, hi, rfl⟩
    have hlt : i < M.d := List.mem_range.mp hi
    rw [zero_pow (by omega : M.d - i ≠ 0)]
    ring

/-- At an affine point `(ζ : 1)` the first polynomial evaluates to the
Horner value at `ζ`. -/
theorem homEvalF_affine (M : RatMap1) (p : ℕ)
    (hlen : M.F.length = M.d + 1) (ζ : ZMod p) :
    homEvalF M p ζ 1 = evalZ p M.F ζ := by
  rw [homEvalF, evalZ_eq_sum, hlen]
  refine congrArg List.sum (List.map_congr_left fun i _ => ?_)
  rw [one_pow, mul_one]

/-- The decidable per-prime test `badAt` is exactly the
common-projective-zero criterion over `GF(p)` used by the `check` loop
of `primes_of_bad_reduction`: every point of the projective line is
`(1 : 0)` or `(ζ : 1)`, and `badAt` holds iff one of them is a common
zero of the reduced defining polynomials. -/
theorem badAt_iff_common_zero (M : RatMap1) (p : ℕ) (hp : 0 < p)
    (hd : 1 ≤ M.d) (hlen : M.F.length = M.d + 1) :
    M.badAt p = true ↔
      ((homEvalF M p 1 0 = 0 ∧ homEvalG M p 0 = 0) ∨
        ∃ ζ : ZMod p, homEvalF M p ζ 1 = 0 ∧ homEvalG M p 1 = 0) := by
  haveI : NeZero p := ⟨hp.ne'⟩
  have hpz : (p : ℤ) ≠ 0 := by exact_mod_cast hp.ne'
  rw [RatMap1.badAt, Bool.or_eq_true, Bool.and_eq_true, beq_iff_eq,
    beq_iff_eq]
  have hlead : M.lead % (p : ℤ) = 0 ↔ ((M.lead : ℤ) : ZMod p) = 0 := by
    rw [ZMod.intCast_zmod_eq_zero_iff_dvd, Int.dvd_iff_emod_eq_zero]
  have hgiff : M.g % (p : ℤ) = 0 ↔ ((M.g : ℤ) : ZMod p) = 0 := by
    rw [ZMod.intCast_zmod_eq_zero_iff_dvd, Int.dvd_iff_emod_eq_zero]
  have hFzero : ((List.range p).any fun z =>
      evalPolyMod M.F z p == 0) = true ↔
      ∃ ζ : ZMod p, evalZ p M.F ζ = 0 := by
    rw [List.any_eq_true]
    constructor
    · rintro ⟨z, hz, hz0⟩
      rw [beq_iff_eq] at hz0
      exact ⟨(z : ZMod p), (evalPolyMod_zero_iff M.F z p hp).mp hz0⟩
    · rintro ⟨ζ, hζ⟩
      refine ⟨ζ.val, List.mem_range.mpr (ZMod.val_lt ζ), ?_⟩
      rw [beq_iff_eq]
      apply (evalPolyMod_zero_iff M.F ζ.val p hp).mpr
      rw [ZMod.natCast_zmod_val]
      exact hζ
  rw [hlead, hgiff, hFzero, homEvalF_inf M p]
  have hG0 : homEvalG M p 0 = 0 := by
    rw [homEvalG, zero_pow (by omega : M.d ≠ 0), mul_zero]
  have hG1 : homEvalG M p 1 = ((M.g : ℤ) : ZMod p) := by
    rw [homEvalG, one_pow, mul_one]
  simp only [homEvalF_affine M p hlen, hG0, hG1, and_true,
    exists_and_right]
  tauto

/-- Validation of the spec-modelled per-prime periods against the
in-src doctest of projective_ds.py lines 5861-5864: for
`(x^2 - y^2, y^2)` over `GF(13)` the possible periods are
`1` (infinity), `2` (the superattracting 2-cycle through 0), and `3`
with `36 = 3 * 12` for the 3-cycle through `(3 : 1)` of multiplier
order 12. -/
theorem perPrimePeriods_doctest_gf13 :
    List.insertionSort (· ≤ ·) (perPrimePeriods ⟨2, [-1, 0, 1], 1⟩ 13) =
      [1, 2, 3, 36] := by decide

/-- Validation against the in-src doctest of projective_ds.py lines
5854-5857: for `(x^2 - 2y^2, y^2)` over `GF(23)` the possible periods
are `[1, 5, 11, 22, 110]`. -/
theorem perPrimePeriods_doctest_gf23 :
    List.insertionSort (· ≤ ·) (perPrimePeriods ⟨2, [-2, 0, 1], 1⟩ 23) =
      [1, 5, 11, 22, 110] := by decide

/-- Validation against the in-src doctests of projective_ds.py lines
2271-2280: for `(5x^3 - 53xy^2 + 24y^3, 24y^3)` (a morphism, bad-prime
candidates 2, 3, 5, all of which the check loop keeps) the primes up
to 5 are all bad (hard error), the range `[1, 10]` leaves only 7 and
yields `[1, 4, 12]`, and the range `[1, 20]` yields `[1, 4]`. -/
theorem possiblePeriodsQQ_doctest_cubic :
    possiblePeriodsQQ ⟨3, [24, -53, 0, 5], 24⟩ true [2, 3, 5] 1 5 =
        .error "no primes of good reduction in that range" ∧
    possiblePeriodsQQ ⟨3, [24, -53, 0, 5], 24⟩ true [2, 3, 5] 1 10 =
        .ok [1, 4, 12] ∧
    possiblePeriodsQQ ⟨3, [24, -53, 0, 5], 24⟩ true [2, 3, 5] 1 20 =
        .ok [1, 4] := by
  refine ⟨rfl, rfl, rfl⟩

/-- C5: for `f(x,y) = (x^2 - 29/16 y^2, y^2)` on the projective line
over the rationals, the possible-period sieve over the default range
`[1, 20]` returns exactly the sorted list `[1, 3]` — the in-src
doctest of projective_ds.py lines 2264-2267.  The map is a morphism
and its only prime of bad reduction is 2, so the theorem holds for
every candidate list the external Groebner step may deliver, as long
as it is sound (contains the bad prime 2); the check loop trims every
other candidate, and the good primes of the range are
3, 5, 7, 11, 13, 17, 19. -/
theorem possible_periods_map2916 (cands : List ℕ) (h2 : 2 ∈ cands) :
    possiblePeriodsQQ map2916 true cands 1 20 = .ok [1, 3] := by
  have hrange : primesInRange 1 20 = [2, 3, 5, 7, 11, 13, 17, 19] := by
    decide
  have hgood : (primesInRange 1 20).filter
      (fun q => ¬ (cands.filter fun p => map2916.badAt p).contains q) =
      [3, 5, 7, 11, 13, 17, 19] := by
    have hstep2 : List.filter
        (fun q => ¬ (cands.filter fun p => map2916.badAt p).contains q)
        [2, 3, 5, 7, 11, 13, 17, 19] =
        List.filter (fun q => ¬ q = 2) [2, 3, 5, 7, 11, 13, 17, 19] := by
      refine List.filter_congr ?_
      intro q hq
      rw [decide_eq_decide]
      have hmem : (cands.filter fun p => map2916.badAt p).contains q =
          true ↔ q ∈ cands ∧ map2916.badAt q = true := by
        rw [show ((cands.filter fun p => map2916.badAt p).contains q) =
            List.elem q (cands.filter fun p => map2916.badAt p) from rfl]
        rw [List.elem_iff, List.mem_filter]
      constructor
      · intro hnc hq2
        subst hq2
        exact hnc (hmem.mpr ⟨h2, by decide⟩)
      · intro hne hc
        have hbad := (hmem.mp hc).2
        have hall : ∀ r ∈ [2, 3, 5, 7, 11, 13, 17, 19],
            map2916.badAt r = true → r = 2 := by decide
        exact hne (hall q hq hbad)
    rw [hrange, hstep2]
    decide
  show possiblePeriodsSieve (perPrimePeriods map2916)
      (fun q => (cands.filter fun p => map2916.badAt p).contains q)
      1 20 = .ok [1, 3]
  unfold possiblePeriodsSieve
  rw [hgood]
  rfl

/-- Witness for `possible_periods_map2916`: with the realistic
candidate list `[2, 29]` (29 is trimmed by the check loop, 2 kept) the
sieve returns `[1, 3]`. -/
theorem possible_periods_map2916_witness :
    possiblePeriodsQQ map2916 true [2, 29] 1 20 = .ok [1, 3] :=
  possible_periods_map2916 [2, 29] (by decide)

/-- The branch enumeration covers exactly `p^N` digit vectors. -/
theorem allShifts_length (p : ℕ) : ∀ n, (allShifts p n).length = p ^ n := by
  intro n
  induction n with
  | zero => rfl
  | succ n ih =>
    rw [allShifts, List.length_flatMap]
    have hmap : List.map
        (List.length ∘ fun digit => List.map (fun s => digit :: s)
          (allShifts p n)) (List.range p) =
        List.map (fun _ => p ^ n) (List.range p) := by
      refine List.map_congr_left fun a _ => ?_
      simp [ih]
    rw [hmap, List.map_const', List.sum_replicate, List.length_range]
    simp [pow_succ, Nat.mul_comm]

/-- A `filterMap` that keeps the image of `f` under a test is the
filtered image. -/
theorem filterMap_if_eq_filter_map {α β : Type} (f : α → β)
    (P : β → Bool) (l : List α) :
    (l.filterMap fun s => if P (f s) then some (f s) else none) =
      (l.map f).filter P := by
  induction l with
  | nil => rfl
  | cons a l ih =>
    by_cases h : P (f a) <;>
      simp [List.filterMap_cons, List.filter_cons, h, ih]

/-- C3: in the inner lifting loop, whenever the Jacobian determinant
of the `n`-th-iterate-minus-identity at the current approximation is
invertible mod `p^k` (and the Newton update goes through, as it always
does for a candidate that is `n`-periodic mod `p^k`), exactly one
Newton step is taken and the loop continues from the updated point
with precision advanced from `k` to `min(2k, L)` — `L` being the fixed
precision target computed once before the loops. -/
theorem lift_hensel_fast_path {α : Type} (pr : LiftParams α) (fuel : ℕ)
    (T T' : α) (n k : ℕ) (hk : k < pr.L)
    (hdet : pr.detInvertible T n k = true)
    (hstep : pr.newtonStep T n k = some T') :
    liftRaise pr (fuel + 1) T n k =
      liftRaise pr fuel T' n (min (2 * k) pr.L) := by
  rw [liftRaise, if_pos hk, liftStep, if_pos hdet, hstep]

/-- Witness for `lift_hensel_fast_path`: on the trivial instance a
candidate at precision 1 with invertible Jacobian advances to
precision `min(2, L) = 2`. -/
theorem lift_hensel_fast_path_witness :
    liftRaise trivialLift 1 true 1 1 =
      liftRaise trivialLift 0 true 1 (min (2 * 1) trivialLift.L) :=
  lift_hensel_fast_path trivialLift 0 true true 1 1 (by decide) (by decide)
    rfl

/-- C4: in the inner lifting loop, when the Jacobian is singular mod
`p`, all `p^N` one-digit-higher lifts are enumerated; only the lifts
that remain exactly periodic under the `n`-th iterate at the new
precision are kept; when none survives the candidate is dropped; and
otherwise the first survivor continues in place with precision
advanced by exactly one digit (`k` to `k+1`) while every further
survivor is queued as a new candidate at precision `k+1`. -/
theorem lift_branching_path {α : Type} (pr : LiftParams α) (fuel : ℕ)
    (T : α) (n k : ℕ) (hk : k < pr.L)
    (hdet : pr.detInvertible T n k = false) :
    (allShifts pr.p pr.N).length = pr.p ^ pr.N ∧
    ((((allShifts pr.p pr.N).map fun s => pr.shiftLift T s k).filter
        fun T' => pr.periodicAtNext T' n k) = [] →
      liftRaise pr (fuel + 1) T n k = (none, [])) ∧
    (∀ T' rest,
      (((allShifts pr.p pr.N).map fun s => pr.shiftLift T s k).filter
        fun T' => pr.periodicAtNext T' n k) = T' :: rest →
      liftRaise pr (fuel + 1) T n k =
        ((liftRaise pr fuel T' n (k + 1)).1,
          rest.map (fun S => (S, n, k + 1)) ++
            (liftRaise pr fuel T' n (k + 1)).2)) := by
  have hsurv : ((allShifts pr.p pr.N).filterMap fun s =>
      if pr.periodicAtNext (pr.shiftLift T s k) n k then
        some (pr.shiftLift T s k) else none) =
      ((allShifts pr.p pr.N).map fun s => pr.shiftLift T s k).filter
        fun T' => pr.periodicAtNext T' n k :=
    filterMap_if_eq_filter_map (fun s => pr.shiftLift T s k)
      (fun T' => pr.periodicAtNext T' n k) (allShifts pr.p pr.N)
  refine ⟨allShifts_length pr.p pr.N, fun hnil => ?_, fun T' rest hcons => ?_⟩
  · rw [liftRaise, if_pos hk, liftStep, if_neg (by simp [hdet])]
    rw [show ((allShifts pr.p pr.N).filterMap fun s =>
        let T'' := pr.shiftLift T s k;
        if pr.periodicAtNext T'' n k then some T'' else none) =
        ((allShifts pr.p pr.N).map fun s => pr.shiftLift T s k).filter
          (fun T' => pr.periodicAtNext T' n k) from hsurv, hnil]
  · rw [liftRaise, if_pos hk, liftStep, if_neg (by simp [hdet])]
    rw [show ((allShifts pr.p pr.N).filterMap fun s =>
        let T'' := pr.shiftLift T s k;
        if pr.periodicAtNext T'' n k then some T'' else none) =
        ((allShifts pr.p pr.N).map fun s => pr.shiftLift T s k).filter
          (fun T' => pr.periodicAtNext T' n k) from hsurv, hcons]

/-- Witness for `lift_branching_path`: on an instance whose Jacobian
test always reports singular, the branching step enumerates exactly
`p^N = 2` one-digit lifts. -/
theorem lift_branching_path_witness :
    (allShifts 2 1).length = 2 ^ 1 :=
  (lift_branching_path branchingLift 0 true 1 1 (by decide) rfl).1

/-- Projective equality is preserved by iterating the exact map, given
that it is preserved by one application. -/
theorem beq_iterate_compat {α : Type} (pr : LiftParams α)
    (hcompat : ∀ a b, pr.beq a b = true → pr.beq (pr.fQ a) (pr.fQ b) = true) :
    ∀ (m : ℕ) (a b : α), pr.beq a b = true →
      pr.beq (pr.fQ^[m] a) (pr.fQ^[m] b) = true := by
  intro m
  induction m with
  | zero => intro a b h; simpa using h
  | succ m ih =>
    intro a b h
    rw [Function.iterate_succ_apply, Function.iterate_succ_apply]
    exact ih _ _ (hcompat _ _ h)

/-- The verification loop only ever appends pairs `(Q, m)` with
`f^m(Q) == Q`: a pair is recorded only at the step where the `m`-th
exact iterate of the reconstructed point closed up projectively. -/
theorem verifyLoop_preserves {α : Type} (pr : LiftParams α)
    (hcompat : ∀ a b, pr.beq a b = true → pr.beq (pr.fQ a) (pr.fQ b) = true)
    (P : α) :
    ∀ (c j : ℕ) (good : List (α × ℕ)),
      (∀ q ∈ good, pr.beq (pr.fQ^[q.2] q.1) q.1 = true) →
      ∀ q ∈ verifyLoop pr P c (pr.fQ^[j] P) (j + 1) good,
        pr.beq (pr.fQ^[q.2] q.1) q.1 = true := by
  intro c
  induction c with
  | zero =>
    intro j good hg q hq
    rw [verifyLoop] at hq
    exact hg q hq
  | succ c ih =>
    intro j good hg q hq
    rw [verifyLoop] at hq
    rw [show pr.fQ (pr.fQ^[j] P) = pr.fQ^[j + 1] P from
      (Function.iterate_succ_apply' pr.fQ j P).symm] at hq
    by_cases hbeq : pr.beq (pr.fQ^[j + 1] P) P = true
    · rw [if_pos hbeq] at hq
      by_cases hdup : good.any (fun q => pr.beq q.1 P && q.2 == j + 1) = true
      · rw [if_pos hdup] at hq
        exact hg q hq
      · rw [if_neg hdup] at hq
        rcases List.mem_append.mp hq with hmem | hmem
        · exact hg q hmem
        · rcases List.mem_singleton.mp hmem with rfl
          exact beq_iterate_compat pr hcompat (j + 1) _ _ hbeq
    · rw [if_neg hbeq] at hq
      exact ih (j + 1) good hg q hq

/-- The verification block preserves the orbit-closure property of the
recorded pairs. -/
theorem verifyPoint_preserves {α : Type} (pr : LiftParams α)
    (hcompat : ∀ a b, pr.beq a b = true → pr.beq (pr.fQ a) (pr.fQ b) = true)
    (P : α) (n : ℕ) (good : List (α × ℕ))
    (hg : ∀ q ∈ good, pr.beq (pr.fQ^[q.2] q.1) q.1 = true) :
    ∀ q ∈ verifyPoint pr P n good,
      pr.beq (pr.fQ^[q.2] q.1) q.1 = true := by
  have h := verifyLoop_preserves pr hcompat P n 0 good hg
  simpa [verifyPoint] using h

/-- The outer lifting loop only accumulates verified pairs. -/
theorem liftLoop_preserves {α : Type} (pr : LiftParams α)
    (hcompat : ∀ a b, pr.beq a b = true → pr.beq (pr.fQ a) (pr.fQ b) = true) :
    ∀ (fuel : ℕ) (cands : List (α × ℕ × ℕ)) (good : List (α × ℕ)),
      (∀ q ∈ good, pr.beq (pr.fQ^[q.2] q.1) q.1 = true) →
      ∀ q ∈ liftLoop pr fuel cands good,
        pr.beq (pr.fQ^[q.2] q.1) q.1 = true := by
  intro fuel
  induction fuel with
  | zero =>
    intro cands good hg q hq
    cases cands with
    | nil => simp only [liftLoop] at hq; exact hg q hq
    | cons c rest => simp only [liftLoop] at hq; exact hg q hq
  | succ fuel ih =>
    intro cands good hg q hq
    cases cands with
    | nil => simp only [liftLoop] at hq; exact hg q hq
    | cons c rest =>
      obtain ⟨T, n, k⟩ := c
      simp only [liftLoop] at hq
      rcases hres : liftRaise pr pr.L (pr.normalizeQ T) n k with ⟨res, extra⟩
      rw [hres] at hq
      cases res with
      | none => exact ih _ _ hg q hq
      | some Tfin =>
        dsimp only at hq
        cases hrec : pr.reconstruct Tfin with
        | none => rw [hrec] at hq; exact ih _ _ hg q hq
        | some P =>
          rw [hrec] at hq
          exact ih _ _ (verifyPoint_preserves pr hcompat P n good hg) q hq

/-- C1: every pair `(P, m)` returned by `lift_to_rational_periodic`
satisfies exact orbit closure: the `m`-th iterate of the exact map at
`P` is projectively equal to `P`.  A pair is recorded only inside the
verification loop, after the closure test succeeded. -/
theorem lift_verified_orbit_closure {α : Type} (pr : LiftParams α)
    (hcompat : ∀ a b, pr.beq a b = true → pr.beq (pr.fQ a) (pr.fQ b) = true)
    (fuel : ℕ) (pointsModP : List (α × ℕ)) :
    ∀ q ∈ liftToRationalPeriodic pr fuel pointsModP,
      pr.beq (pr.fQ^[q.2] q.1) q.1 = true :=
  liftLoop_preserves pr hcompat fuel _ [] (by simp)

/-- Witness for `lift_verified_orbit_closure`: running the trivial
instance on the single candidate `(true, 1)` returns the pair
`(true, 1)`, and the first exact iterate of `true` is projectively
equal to `true`. -/
theorem lift_verified_orbit_closure_witness :
    trivialLift.beq (trivialLift.fQ^[1] true) true = true :=
  lift_verified_orbit_closure trivialLift (by decide) 2 [(true, 1)]
    (true, 1) (by decide)

/-- A successful `D.index` lookup returns an equal element of `D`. -/
theorem findRep_some {α : Type} {beq : α → α → Bool} {D : List α}
    {x r : α} (h : findRep beq D x = some r) :
    r ∈ D ∧ beq r x = true :=
  ⟨List.mem_of_find?_eq_some h, by simpa using List.find?_some h⟩

/-- A failed `D.index` lookup means no element of `D` is equal. -/
theorem findRep_none {α : Type} {beq : α → α → Bool} {D : List α}
    {x : α} (h : findRep beq D x = none) :
    ∀ d ∈ D, beq d x = false := by
  intro d hd
  have := List.find?_eq_none.mp h d hd
  simpa using this

/-- Appending a point not equal to any member keeps `D` a system of
pairwise-inequivalent representatives. -/
theorem pairwise_beq_append {α : Type} (beq : α → α → Bool)
    {D : List α} {x : α}
    (hD : D.Pairwise fun a b => beq a b = false)
    (hx : ∀ d ∈ D, beq d x = false) :
    (D ++ [x]).Pairwise fun a b => beq a b = false := by
  rw [List.pairwise_append]
  exact ⟨hD, List.pairwise_singleton _ _, by simpa using hx⟩

/-- One loop iteration preserves the representative invariant. -/
theorem graphStep_inv {α : Type} (beq : α → α → Bool) (f nrm : α → α)
    (hrefl : ∀ a, beq a a = true)
    (pts : List α) (st : GraphState α) (val : α)
    (hinv : graphInv beq f nrm pts st) :
    graphInv beq f nrm (pts ++ [val]) (graphStep beq f nrm st val) := by
  obtain ⟨hpair, hV, hE⟩ := hinv
  rw [graphStep]
  rcases h1 : findRep beq st.D val with - | r
  · -- the point is new: it becomes its own representative
    dsimp only
    rcases h2 : findRep beq (st.D ++ [val]) (nrm (f val)) with - | r'
    · refine ⟨?_, ?_, ?_⟩
      · exact pairwise_beq_append beq
          (pairwise_beq_append beq hpair (findRep_none h1))
          (findRep_none h2)
      · refine List.rel_append (hV.imp fun a b h =>
          ⟨List.mem_append.mpr (Or.inl (List.mem_append.mpr (Or.inl h.1))),
            h.2⟩) ?_
        exact List.Forall₂.cons
          ⟨List.mem_append.mpr (Or.inl (List.mem_append.mpr
            (Or.inr (List.mem_singleton.mpr rfl)))), hrefl val⟩
          List.Forall₂.nil
      · refine List.rel_append (hE.imp fun a b h =>
          ⟨List.mem_append.mpr (Or.inl (List.mem_append.mpr (Or.inl h.1))),
            h.2⟩) ?_
        exact List.Forall₂.cons
          ⟨List.mem_append.mpr (Or.inr (List.mem_singleton.mpr rfl)),
            hrefl _⟩ List.Forall₂.nil
    · obtain ⟨hr'mem, hr'beq⟩ := findRep_some h2
      refine ⟨pairwise_beq_append beq hpair (findRep_none h1), ?_, ?_⟩
      · refine List.rel_append (hV.imp fun a b h =>
          ⟨List.mem_append.mpr (Or.inl h.1), h.2⟩) ?_
        exact List.Forall₂.cons
          ⟨List.mem_append.mpr (Or.inr (List.mem_singleton.mpr rfl)),
            hrefl val⟩ List.Forall₂.nil
      · refine List.rel_append (hE.imp fun a b h =>
          ⟨List.mem_append.mpr (Or.inl h.1), h.2⟩) ?_
        exact List.Forall₂.cons ⟨hr'mem, hr'beq⟩ List.Forall₂.nil
  · -- the point already has a representative `r`
    dsimp only
    obtain ⟨hrmem, hrbeq⟩ := findRep_some h1
    rcases h2 : findRep beq st.D (nrm (f val)) with - | r'
    · refine ⟨pairwise_beq_append beq hpair (findRep_none h2), ?_, ?_⟩
      · refine List.rel_append (hV.imp fun a b h =>
          ⟨List.mem_append.mpr (Or.inl h.1), h.2⟩) ?_
        exact List.Forall₂.cons
          ⟨List.mem_append.mpr (Or.inl hrmem), hrbeq⟩ List.Forall₂.nil
      · refine List.rel_append (hE.imp fun a b h =>
          ⟨List.mem_append.mpr (Or.inl h.1), h.2⟩) ?_
        exact List.Forall₂.cons
          ⟨List.mem_append.mpr (Or.inr (List.mem_singleton.mpr rfl)),
            hrefl _⟩ List.Forall₂.nil
    · obtain ⟨hr'mem, hr'beq⟩ := findRep_some h2
      refine ⟨hpair, ?_, ?_⟩
      · exact List.rel_append hV
          (List.Forall₂.cons ⟨hrmem, hrbeq⟩ List.Forall₂.nil)
      · exact List.rel_append hE
          (List.Forall₂.cons ⟨hr'mem, hr'beq⟩ List.Forall₂.nil)

/-- The loop of `_preperiodic_points_to_cyclegraph` establishes the
representative invariant for the whole input list. -/
theorem buildGraphState_inv {α : Type} (beq : α → α → Bool)
    (f nrm : α → α) (hrefl : ∀ a, beq a a = true) (preper : List α) :
    graphInv beq f nrm preper (buildGraphState beq f nrm preper) := by
  have main : ∀ (pts pre : List α) (st : GraphState α),
      graphInv beq f nrm pre st →
      graphInv beq f nrm (pre ++ pts)
        (pts.foldl (graphStep beq f nrm) st) := by
    intro pts
    induction pts with
    | nil => intro pre st h; simpa using h
    | cons val pts ih =>
      intro pre st h
      have h2 := ih (pre ++ [val]) _ (graphStep_inv beq f nrm hrefl pre st val h)
      simpa [List.append_assoc] using h2
  have h0 : graphInv beq f nrm [] (⟨[], [], []⟩ : GraphState α) :=
    ⟨List.Pairwise.nil, List.Forall₂.nil, List.Forall₂.nil⟩
  simpa [buildGraphState] using main preper [] _ h0

/-- `D` holds at most one representative per equality class: two equal
members are identical. -/
theorem rep_unique {α : Type} {beq : α → α → Bool}
    (hsymm : ∀ a b, beq a b = true → beq b a = true)
    {D : List α} (hpair : D.Pairwise fun a b => beq a b = false)
    {a b : α} (ha : a ∈ D) (hb : b ∈ D) (h : beq a b = true) : a = b := by
  by_contra hne
  have hsymmR : Symmetric fun a b : α => beq a b = false := by
    intro x y hxy
    cases hyx : beq y x
    · rfl
    · exact absurd (hsymm y x hyx) (by simp [hxy])
  have := List.Pairwise.forall hsymmR hpair ha hb hne
  simp [h] at this

/-- A member of the zipped vertex/edge lists is related to a common
input point by both componentwise relations. -/
theorem zip_forall₂_mem {α : Type} {R S : α → α → Prop} :
    ∀ {V E pts : List α}, List.Forall₂ R V pts → List.Forall₂ S E pts →
      ∀ p ∈ V.zip E, ∃ x ∈ pts, R p.1 x ∧ S p.2 x := by
  intro V E pts hV
  induction hV generalizing E with
  | nil => intro hE p hp; simp at hp
  | @cons v x V' pts' hvx hV' ih =>
    intro hE p hp
    cases hE with
    | cons hex hE' =>
      rcases List.mem_cons.mp hp with rfl | hp'
      · exact ⟨x, List.mem_cons_self _ _, hvx, hex⟩
      · obtain ⟨y, hy, h1, h2⟩ := ih hE' p hp'
        exact ⟨y, List.mem_cons_of_mem _ hy, h1, h2⟩

/-- Every input point has a corresponding vertex/edge pair in the
zipped lists. -/
theorem zip_forall₂_mem_right {α : Type} {R S : α → α → Prop} :
    ∀ {V E pts : List α}, List.Forall₂ R V pts → List.Forall₂ S E pts →
      ∀ x ∈ pts, ∃ p ∈ V.zip E, R p.1 x ∧ S p.2 x := by
  intro V E pts hV
  induction hV generalizing E with
  | nil => intro hE x hx; simp at hx
  | @cons v y V' pts' hvy hV' ih =>
    intro hE x hx
    cases hE with
    | cons hey hE' =>
      rcases List.mem_cons.mp hx with rfl | hx'
      · exact ⟨(v, _), List.mem_cons_self _ _, hvy, hey⟩
      · obtain ⟨p, hp, h1, h2⟩ := ih hE' x hx'
        exact ⟨p, List.mem_cons_of_mem _ hp, h1, h2⟩

/-- Updating a value in place does not change the key list. -/
theorem keys_map_update {α β : Type} [DecidableEq α]
    (d : List (α × β)) (k : α) (v : β) :
    (d.map fun q => if q.1 = k then (q.1, v) else q).map Prod.fst =
      d.map Prod.fst := by
  rw [List.map_map]
  refine List.map_congr_left fun q _ => ?_
  dsimp only [Function.comp]
  split <;> rfl

/-- Every entry of a `dict` insertion is an old entry or the inserted
pair. -/
theorem dictInsert_subset {α β : Type} [DecidableEq α]
    (d : List (α × β)) (kv : α × β) :
    ∀ kv' ∈ dictInsert d kv, kv' ∈ d ∨ kv' = kv := by
  intro kv' h
  unfold dictInsert at h
  split at h
  · rcases List.mem_map.mp h with ⟨q, hq, heq⟩
    by_cases hq1 : q.1 = kv.1
    · right
      rw [if_pos hq1] at heq
      rw [← heq, hq1]
    · left
      rw [if_neg hq1] at heq
      exact heq ▸ hq
  · rcases List.mem_append.mp h with h' | h'
    · exact Or.inl h'
    · exact Or.inr (List.mem_singleton.mp h')

/-- Key membership after a `dict` insertion. -/
theorem dictInsert_keys_mem {α β : Type} [DecidableEq α]
    (d : List (α × β)) (kv : α × β) (a : α) :
    a ∈ (dictInsert d kv).map Prod.fst ↔
      a ∈ d.map Prod.fst ∨ a = kv.1 := by
  unfold dictInsert
  split
  · next hk =>
    rw [keys_map_update]
    constructor
    · exact Or.inl
    · rintro (h | rfl)
      · exact h
      · rcases List.any_eq_true.mp hk with ⟨q, hq, hq1⟩
        rw [decide_eq_true_eq] at hq1
        exact hq1 ▸ List.mem_map_of_mem Prod.fst hq
  · rw [List.map_append, List.map_singleton]
    rw [List.mem_append, List.mem_singleton]

/-- A `dict` insertion keeps the key list duplicate-free. -/
theorem dictInsert_keys_nodup {α β : Type} [DecidableEq α]
    (d : List (α × β)) (kv : α × β)
    (h : (d.map Prod.fst).Nodup) :
    ((dictInsert d kv).map Prod.fst).Nodup := by
  unfold dictInsert
  split
  · next hk => rw [keys_map_update]; exact h
  · next hk =>
    rw [List.map_append, List.map_singleton]
    rw [List.nodup_append]
    refine ⟨h, List.nodup_singleton _, fun a ha hb => ?_⟩
    rcases List.mem_singleton.mp hb with rfl
    rcases List.mem_map.mp ha with ⟨q, hq, hq1⟩
    exact hk (List.any_eq_true.mpr ⟨q, hq, by simp [hq1]⟩)

/-- Every entry of a python `dict` is an entry of the association list
it was built from. -/
theorem pythonDict_subset {α β : Type} [DecidableEq α] :
    ∀ (l d : List (α × β)), ∀ kv ∈ l.foldl dictInsert d,
      kv ∈ d ∨ kv ∈ l := by
  intro l
  induction l with
  | nil => intro d kv h; exact Or.inl h
  | cons a l ih =>
    intro d kv h
    rcases ih (dictInsert d a) kv h with h' | h'
    · rcases dictInsert_subset d a kv h' with h'' | rfl
      · exact Or.inl h''
      · exact Or.inr (List.mem_cons_self _ _)
    · exact Or.inr (List.mem_cons_of_mem _ h')

/-- The keys of a python `dict` are the keys of the association
list. -/
theorem pythonDict_keys_mem {α β : Type} [DecidableEq α] :
    ∀ (l d : List (α × β)) (a : α),
      a ∈ (l.foldl dictInsert d).map Prod.fst ↔
        a ∈ d.map Prod.fst ∨ a ∈ l.map Prod.fst := by
  intro l
  induction l with
  | nil => intro d a; simp
  | cons kv l ih =>
    intro d a
    rw [List.foldl_cons, ih, dictInsert_keys_mem, List.map_cons,
      List.mem_cons]
    tauto

/-- The key list of a python `dict` is duplicate-free. -/
theorem pythonDict_keys_nodup {α β : Type} [DecidableEq α] :
    ∀ (l d : List (α × β)), (d.map Prod.fst).Nodup →
      ((l.foldl dictInsert d).map Prod.fst).Nodup := by
  intro l
  induction l with
  | nil => intro d h; exact h
  | cons kv l ih =>
    intro d h
    exact ih (dictInsert d kv) (dictInsert_keys_nodup d kv h)

/-- In an association list with duplicate-free keys, a key determines
its value. -/
theorem nodup_keys_val_unique {α β : Type} :
    ∀ (d : List (α × β)), (d.map Prod.fst).Nodup →
      ∀ (u : α) (e e' : β), (u, e) ∈ d → (u, e') ∈ d → e = e' := by
  intro d
  induction d with
  | nil => intro _ u e e' h; simp at h
  | cons a rest ih =>
    intro hnd u e e' h1 h2
    rw [List.map_cons, List.nodup_cons] at hnd
    rcases List.mem_cons.mp h1 with rfl | h1'
    · rcases List.mem_cons.mp h2 with heq | h2'
      · exact (Prod.mk.injEq _ _ _ _ ▸ heq.symm).2
      · exact absurd (List.mem_map_of_mem Prod.fst h2') hnd.1
    · rcases List.mem_cons.mp h2 with rfl | h2'
      · exact absurd (List.mem_map_of_mem Prod.fst h1') hnd.1
      · exact ih hnd.2 u e e' h1' h2'

/-- Entries of a python `dict` come from the association list. -/
theorem pythonDict_mem_subset {α β : Type} [DecidableEq α]
    (l : List (α × β)) : ∀ kv ∈ pythonDict l, kv ∈ l := by
  intro kv h
  rcases pythonDict_subset l [] kv h with h' | h'
  · simp at h'
  · exact h'

/-- Keys of a python `dict` are the keys of the association list. -/
theorem pythonDict_mem_keys {α β : Type} [DecidableEq α]
    (l : List (α × β)) (a : α) :
    a ∈ (pythonDict l).map Prod.fst ↔ a ∈ l.map Prod.fst := by
  rw [pythonDict, pythonDict_keys_mem l [] a]
  simp

/-- A python `dict` has duplicate-free keys. -/
theorem pythonDict_nodup_keys {α β : Type} [DecidableEq α]
    (l : List (α × β)) : ((pythonDict l).map Prod.fst).Nodup :=
  pythonDict_keys_nodup l [] (by simp)

/-- When every edge target of the dictionary is itself a key, the
digraph's vertices are exactly the keys. -/
theorem digraphVertices_eq_keys {α : Type} [DecidableEq α]
    (d : List (α × α)) (h : ∀ t ∈ d.map (·.2), t ∈ d.map (·.1)) :
    digraphVertices d = d.map (·.1) := by
  unfold digraphVertices
  rw [List.filter_eq_nil_iff.mpr fun t ht => by simpa using h t ht]
  simp

/-- C9: for a complete input list (the normalized image of every
listed point is projectively equal to a listed point), the digraph of
`_preperiodic_points_to_cyclegraph` has one vertex per
projective-equality class of the listed points — its vertices are
pairwise inequivalent, every listed point is equivalent to a vertex,
and every vertex to a listed point — and every vertex carries exactly
one outgoing edge, whose target is projectively equal to the vertex's
image under the map and is itself a vertex (so fixed points give
self-loops). -/
theorem preperiodic_cyclegraph_correct {α : Type} [DecidableEq α]
    (beq : α → α → Bool) (f nrm : α → α)
    (hrefl : ∀ a, beq a a = true)
    (hsymm : ∀ a b, beq a b = true → beq b a = true)
    (htrans : ∀ a b c, beq a b = true → beq b c = true → beq a c = true)
    (hcong : ∀ a b, beq a b = true → beq (f a) (f b) = true)
    (hnrm : ∀ a, beq (nrm a) a = true)
    (preper : List α)
    (hcomp : ∀ v ∈ preper, ∃ w ∈ preper, beq (nrm (f v)) w = true) :
    (digraphVertices
        (preperiodicPointsToCyclegraph beq f nrm preper)).Pairwise
      (fun a b => beq a b = false) ∧
    (∀ v ∈ preper,
      ∃ u ∈ digraphVertices (preperiodicPointsToCyclegraph beq f nrm preper),
        beq u v = true) ∧
    (∀ u ∈ digraphVertices (preperiodicPointsToCyclegraph beq f nrm preper),
      ∃ v ∈ preper, beq u v = true) ∧
    (∀ u ∈ digraphVertices (preperiodicPointsToCyclegraph beq f nrm preper),
      ∃ e, (u, e) ∈ preperiodicPointsToCyclegraph beq f nrm preper ∧
        beq e (f u) = true ∧
        e ∈ digraphVertices (preperiodicPointsToCyclegraph beq f nrm preper) ∧
        ∀ e', (u, e') ∈ preperiodicPointsToCyclegraph beq f nrm preper →
          e' = e) := by
  obtain ⟨hpair, hV, hE⟩ := buildGraphState_inv beq f nrm hrefl preper
  set st := buildGraphState beq f nrm preper with hst
  have hZ1 : ∀ p ∈ st.V.zip st.E, ∃ x ∈ preper,
      (p.1 ∈ st.D ∧ beq p.1 x = true) ∧
      (p.2 ∈ st.D ∧ beq p.2 (nrm (f x)) = true) :=
    zip_forall₂_mem hV hE
  have hZ2 : ∀ x ∈ preper, ∃ p ∈ st.V.zip st.E,
      (p.1 ∈ st.D ∧ beq p.1 x = true) ∧
      (p.2 ∈ st.D ∧ beq p.2 (nrm (f x)) = true) :=
    zip_forall₂_mem_right hV hE
  have hgdef : preperiodicPointsToCyclegraph beq f nrm preper =
      pythonDict (st.V.zip st.E) := rfl
  set g := preperiodicPointsToCyclegraph beq f nrm preper with hg
  have hgsub : ∀ kv ∈ g, kv ∈ st.V.zip st.E := by
    intro kv hkv
    exact pythonDict_mem_subset (st.V.zip st.E) kv (hgdef ▸ hkv)
  have hgkeys : ∀ a, a ∈ g.map Prod.fst ↔ a ∈ (st.V.zip st.E).map Prod.fst := by
    intro a
    rw [hgdef]
    exact pythonDict_mem_keys (st.V.zip st.E) a
  have hgnodup : (g.map Prod.fst).Nodup := by
    rw [hgdef]
    exact pythonDict_nodup_keys (st.V.zip st.E)
  -- every edge target of the zipped lists is a key of the zipped lists
  have htargets : ∀ kv ∈ st.V.zip st.E,
      kv.2 ∈ (st.V.zip st.E).map Prod.fst := by
    intro kv hkv
    obtain ⟨x, hx, ⟨-, -⟩, he⟩ := hZ1 kv hkv
    obtain ⟨w, hw, hww⟩ := hcomp x hx
    obtain ⟨p, hp, ⟨hp1D, hp1⟩, -⟩ := hZ2 w hw
    have h1 : beq kv.2 p.1 = true :=
      htrans _ _ _ (htrans _ _ _ he.2 hww) (hsymm _ _ hp1)
    have := rep_unique hsymm hpair he.1 hp1D h1
    rw [this]
    exact List.mem_map_of_mem Prod.fst hp
  -- hence also of the dictionary, and the digraph's vertex list is the
  -- key list
  have hverts : digraphVertices g = g.map Prod.fst := by
    refine digraphVertices_eq_keys g fun t ht => ?_
    rcases List.mem_map.mp ht with ⟨kv, hkv, rfl⟩
    rw [show (Prod.fst : α × α → α) = (fun q => q.1) from rfl] at hgkeys ⊢
    rw [hgkeys]
    exact htargets kv (hgsub kv hkv)
  refine ⟨?_, ?_, ?_, ?_⟩
  · -- vertices are pairwise inequivalent
    rw [hverts]
    refine List.Pairwise.imp_of_mem ?_ hgnodup
    intro a b ha hb hne
    rcases List.mem_map.mp ha with ⟨kva, hkva, rfl⟩
    rcases List.mem_map.mp hb with ⟨kvb, hkvb, rfl⟩
    obtain ⟨-, -, ⟨haD, -⟩, -⟩ := hZ1 kva (hgsub kva hkva)
    obtain ⟨-, -, ⟨hbD, -⟩, -⟩ := hZ1 kvb (hgsub kvb hkvb)
    cases hab : beq kva.1 kvb.1
    · rfl
    · exact absurd (rep_unique hsymm hpair haD hbD hab) hne
  · -- every listed point has an equivalent vertex
    intro v hv
    obtain ⟨p, hp, ⟨-, hp1⟩, -⟩ := hZ2 v hv
    refine ⟨p.1, ?_, hp1⟩
    rw [hverts, hgkeys]
    exact List.mem_map_of_mem Prod.fst hp
  · -- every vertex is equivalent to a listed point
    intro u hu
    rw [hverts] at hu
    rcases List.mem_map.mp hu with ⟨kv, hkv, rfl⟩
    obtain ⟨x, hx, ⟨-, hkv1⟩, -⟩ := hZ1 kv (hgsub kv hkv)
    exact ⟨x, hx, hkv1⟩
  · -- exactly one outgoing edge, equivalent to the vertex's image
    intro u hu
    rw [hverts] at hu
    rcases List.mem_map.mp hu with ⟨kv, hkv, rfl⟩
    obtain ⟨x, hx, ⟨-, hkv1⟩, hkv2D, hkv2⟩ := hZ1 kv (hgsub kv hkv)
    refine ⟨kv.2, by simpa using hkv, ?_, ?_, ?_⟩
    · -- the target is equivalent to f applied to the vertex
      have h1 : beq kv.2 (f x) = true :=
        htrans _ _ _ hkv2 (hnrm (f x))
      have h2 : beq (f kv.1) (f x) = true := hcong _ _ hkv1
      exact htrans _ _ _ h1 (hsymm _ _ h2)
    · -- the target is itself a vertex
      rw [hverts, hgkeys]
      exact htargets kv (hgsub kv hkv)
    · -- and it is the unique outgoing edge
      intro e' he'
      exact nodup_keys_val_unique g hgnodup kv.1 e' kv.2 he'
        (by simpa using hkv)

/-- Witness for `preperiodic_cyclegraph_correct` on the 2-cycle
`true ↔ false` of boolean negation: the digraph has a vertex equal to
`true`. -/
theorem preperiodic_cyclegraph_correct_witness :
    ∃ u ∈ digraphVertices
      (preperiodicPointsToCyclegraph (fun a b : Bool => a == b)
        Bool.not id [true, false]), (u == true) = true :=
  (preperiodic_cyclegraph_correct (fun a b : Bool => a == b) Bool.not id
    (by decide) (by decide) (by decide) (by decide) (by decide)
    [true, false] (by decide)).2.1 true (by decide)
